import Mathlib

/-! Priority task pool (`utils::TaskUnit`, `utils::TaskPool`)

A shallow embedding of `priority_task_pool.h` / `priority_task_pool.cc`.

* `TaskUnit` carries the three members `task_`, `priority_`, `timestamp_`;
  `TaskUnit.lt` is `TaskUnit::operator<`.
* `TaskPool` carries `tasks_` (the vector underlying the
  `std::priority_queue<TaskUnit>`) and `stop_`.  The members `workers_`,
  `mutex_` and `cond_` only serialise the critical sections; here every
  critical section is one atomic step, and the worker threads are the
  interleaving of `DoTask` steps.
* The heap algorithms behind `std::priority_queue` (`std::push_heap`,
  `std::pop_heap`) are transcribed from libstdc++ `bits/stl_heap.h`.  The vector
  is a list with value semantics: a slot that has been moved from keeps its old
  content, and the algorithms overwrite every such slot before reading it.  The
  loops carry an iteration bound that is never reached (`push_heap_loop_fuel`,
  `adjust_heap_loop_fuel`).
* The result handles (`std::future`) are indices into a list of shared states;
  a bound callable is represented by its outcome, a value or a thrown failure,
  and `std::packaged_task` stores that outcome in the shared state.
* The readings of the steady clock (`STDTS<nanoseconds>()`) are inputs of the
  operations that construct a `TaskUnit`.
-/

namespace utils

/-! ## The heap algorithms of the standard library -/

section Heap

variable {α : Type}

/-- The comparison `comp(first + i, value)` of an element with a value.  -/
def iterLessVal (comp : α → α → Bool) (first : List α) (i : Nat) (value : α) : Bool :=
  match first[i]? with
  | some x => comp x value
  | none => false

/-- The comparison `comp(first + i, first + j)` of two elements.  -/
def iterLessIter (comp : α → α → Bool) (first : List α) (i j : Nat) : Bool :=
  match first[i]?, first[j]? with
  | some x, some y => comp x y
  | _, _ => false

/-- The assignment `*(first + dst) = std::move(*(first + src))`.  -/
def assignFrom (first : List α) (dst src : Nat) : List α :=
  match first[src]? with
  | some x => first.set dst x
  | none => first

/-- The `while` loop of `std::__push_heap`, followed by the final store of `value`
into the hole.  The first argument bounds the number of iterations; the hole index
strictly decreases, so `holeIndex` iterations always suffice. -/
def push_heap_loop (comp : α → α → Bool) (value : α) (topIndex : Nat) :
    Nat → List α → Nat → List α
  | 0, first, holeIndex => first.set holeIndex value
  | fuel + 1, first, holeIndex =>
    let parent := (holeIndex - 1) / 2
    if holeIndex > topIndex && iterLessVal comp first parent value then
      push_heap_loop comp value topIndex fuel (assignFrom first holeIndex parent) parent
    else
      first.set holeIndex value

/-- The function `std::__push_heap(first, holeIndex, topIndex, value, comp)`.  -/
def push_heap_aux (comp : α → α → Bool) (first : List α) (holeIndex topIndex : Nat)
    (value : α) : List α :=
  push_heap_loop comp value topIndex holeIndex first holeIndex

/-- The function `std::push_heap(first, last, comp)` on the whole vector:
`value = *(last - 1)` is sifted up from index `(last - first) - 1`. -/
def push_heap (comp : α → α → Bool) (c : List α) : List α :=
  match c.getLast? with
  | some value => push_heap_aux comp c (c.length - 1) 0 value
  | none => c

/-- The `while (secondChild < (len - 1) / 2)` loop of `std::__adjust_heap`: the hole
walks down, the larger child moving up.  At the loop head `secondChild = holeIndex`.
Returns the vector and the final hole index. -/
def adjust_heap_loop (comp : α → α → Bool) (len : Nat) :
    Nat → List α → Nat → List α × Nat
  | 0, first, holeIndex => (first, holeIndex)
  | fuel + 1, first, holeIndex =>
    if holeIndex < (len - 1) / 2 then
      let secondChild := 2 * (holeIndex + 1)
      let secondChild :=
        if iterLessIter comp first secondChild (secondChild - 1) then secondChild - 1
        else secondChild
      adjust_heap_loop comp len fuel (assignFrom first holeIndex secondChild) secondChild
    else
      (first, holeIndex)

/-- The function `std::__adjust_heap(first, holeIndex, len, value, comp)`.  It is only
called with `len ≥ 1` (from `pop_heap`), where the truncated subtractions agree with
the signed arithmetic of the original. -/
def adjust_heap (comp : α → α → Bool) (first : List α) (holeIndex len : Nat)
    (value : α) : List α :=
  let topIndex := holeIndex
  let r := adjust_heap_loop comp len len first holeIndex
  let r :=
    if len % 2 = 0 && r.2 = (len - 2) / 2 then
      let secondChild := 2 * (r.2 + 1)
      (assignFrom r.1 r.2 (secondChild - 1), secondChild - 1)
    else r
  push_heap_aux comp r.1 r.2 topIndex value

/-- The function `std::pop_heap(first, last, comp)` on the whole vector: when there is
more than one element, `std::__pop_heap` saves the last element, moves the first into
the last slot and lets `adjust_heap` re-insert the saved value into the prefix. -/
def pop_heap (comp : α → α → Bool) (c : List α) : List α :=
  if c.length > 1 then
    let len := c.length - 1
    match c.getLast? with
    | some value => adjust_heap comp (assignFrom c len 0) 0 len value
    | none => c
  else c

/-- The member `std::priority_queue::emplace`: `c.emplace_back(x); push_heap(...)`.  -/
def pq_emplace (comp : α → α → Bool) (c : List α) (x : α) : List α :=
  push_heap comp (c ++ [x])

/-- The member `std::priority_queue::pop`: `pop_heap(...); c.pop_back()`.  -/
def pq_pop (comp : α → α → Bool) (c : List α) : List α :=
  (pop_heap comp c).dropLast

/-- The member `std::priority_queue::top`: `c.front()`.  -/
def pq_top (c : List α) : Option α := c.head?

end Heap

/-! ## Task units -/

/-- The type `Priority = uint8_t`; a greater number is a higher priority.  -/
abbrev Priority := Fin 256

/-- What the bound callable `std::bind(f, args...)` does when it is called: it returns
a value or it throws. -/
inductive Outcome (V E : Type) where
  | value (v : V)
  | failure (e : E)
  deriving DecidableEq, Repr

/-- The state shared by a `std::packaged_task` and its `std::future`.  -/
inductive SharedState (V E : Type) where
  | pending
  | value (v : V)
  | failure (e : E)
  | broken_promise
  deriving DecidableEq, Repr

/-- The `package` that `enqueue` allocates: the bound callable together with the shared
state it reports to (an index into the list of shared states). -/
structure PackagedTask (V E : Type) where
  shared : Nat
  callable : Outcome V E
  deriving DecidableEq, Repr

/-- The type `Task = std::function<void()>`.  The pool only ever stores the lambda
`[package]() { (*package)(); }`; `none` is the empty `std::function`. -/
abbrev Task (V E : Type) := Option (PackagedTask V E)

/-- The class `TaskUnit`.  -/
structure TaskUnit (V E : Type) where
  task_ : Task V E
  priority_ : Priority
  timestamp_ : Int
  deriving DecidableEq, Repr

/-- The constructor `TaskUnit::TaskUnit()`; `now` is the value `STDTS<nanoseconds>()`
reads from the steady clock. -/
def TaskUnit.default {V E : Type} (now : Int) : TaskUnit V E :=
  { task_ := none, priority_ := 0, timestamp_ := now }

/-- The constructor `TaskUnit::TaskUnit(Task&& task, Priority priority)`; `now` is the
value `STDTS<nanoseconds>()` reads from the steady clock. -/
def TaskUnit.new {V E : Type} (task : Task V E) (priority : Priority) (now : Int) :
    TaskUnit V E :=
  { task_ := task, priority_ := priority, timestamp_ := now }

/-- The operator `TaskUnit::operator<`.  -/
def TaskUnit.lt {V E : Type} (self other : TaskUnit V E) : Bool :=
  if self.priority_ = other.priority_ then
    decide (self.timestamp_ > other.timestamp_) -- FIFO
  else
    decide (self.priority_ < other.priority_)

/-- An exception that leaves a worker step.  -/
inductive Thrown where
  | bad_function_call
  | promise_already_satisfied
  deriving DecidableEq, Repr

/-- The result of an operation that may throw.  -/
inductive Res (σ : Type) where
  | ok (s : σ)
  | threw (e : Thrown)
  deriving DecidableEq, Repr

/-- The call `(*package)()` of `std::packaged_task::operator()`: the callable runs, and
its value or its exception is stored in the shared state; a shared state that is
already satisfied makes the call throw. -/
def PackagedTask.call {V E : Type} (p : PackagedTask V E) (futures : List (SharedState V E)) :
    Res (List (SharedState V E)) :=
  match futures[p.shared]? with
  | some .pending =>
    match p.callable with
    | .value v => .ok (futures.set p.shared (.value v))
    | .failure e => .ok (futures.set p.shared (.failure e))
  | _ => .threw .promise_already_satisfied

/-- The operator `TaskUnit::operator()`: `task_()`.  Calling an empty `std::function`
throws `std::bad_function_call`. -/
def TaskUnit.call {V E : Type} (u : TaskUnit V E) (futures : List (SharedState V E)) :
    Res (List (SharedState V E)) :=
  match u.task_ with
  | some package => package.call futures
  | none => .threw .bad_function_call

/-- The destruction of a task unit that owns the last reference to its `package`: the
destructor of `std::packaged_task` abandons a shared state that is not ready, which
stores the `broken_promise` error in it. -/
def TaskUnit.destroy {V E : Type} (u : TaskUnit V E) (futures : List (SharedState V E)) :
    List (SharedState V E) :=
  match u.task_ with
  | some package =>
    match futures[package.shared]? with
    | some .pending => futures.set package.shared .broken_promise
    | _ => futures
  | none => futures

/-- The class `TaskPool`: the vector under the priority queue `tasks_` and the flag
`stop_`. -/
structure TaskPool (V E : Type) where
  tasks_ : List (TaskUnit V E)
  stop_ : Bool
  deriving DecidableEq, Repr

/-- The pool together with the shared states of the handles it has handed out
(`futures`, in the order of creation) and the history `invoked` of the units on which
`operator()` has been called, oldest first. -/
structure System (V E : Type) where
  pool : TaskPool V E
  futures : List (SharedState V E)
  invoked : List (TaskUnit V E)
  deriving DecidableEq, Repr

/-- The constructor `TaskPool::TaskPool`: `stop_(false)` and an empty queue.  -/
def TaskPool.new {V E : Type} : System V E :=
  { pool := { tasks_ := [], stop_ := false }, futures := [], invoked := [] }

/-- The member `TaskPool::size`.  -/
def TaskPool.size {V E : Type} (s : System V E) : Nat :=
  s.pool.tasks_.length

/-- The member `TaskPool::enqueue(pri, f, args...)`: a fresh `package` with a fresh
pending shared state, wrapped in a task unit that is emplaced in `tasks_`.  Returns the
handle `res` and the new state.  `now` is the clock reading of the unit's constructor. -/
def TaskPool.enqueue {V E : Type} (now : Int) (pri : Priority) (f : Outcome V E)
    (s : System V E) : Nat × System V E :=
  let res := s.futures.length
  let package : PackagedTask V E := { shared := res, callable := f }
  let task : Task V E := some package
  (res,
   { pool := { tasks_ := pq_emplace TaskUnit.lt s.pool.tasks_ (TaskUnit.new task pri now),
               stop_ := s.pool.stop_ },
     futures := s.futures ++ [SharedState.pending],
     invoked := s.invoked })

/-- The member `TaskPool::DoTask`.  `now` is the clock reading of the constructor of the
local `task`.  The result is the returned flag and the new state, or the exception
that leaves the step. -/
def TaskPool.DoTask {V E : Type} (now : Int) (s : System V E) : Res (Bool × System V E) :=
  let task : TaskUnit V E := TaskUnit.default now
  if s.pool.stop_ then .ok (false, s)
  else if s.pool.tasks_.isEmpty then
    .ok (true, s) -- waiting for task
  else
    let task := (pq_top s.pool.tasks_).getD task
    let tasks := pq_pop TaskUnit.lt s.pool.tasks_
    -- Invoke task
    match task.call s.futures with
    | .ok futures =>
      .ok (true, { pool := { tasks_ := tasks, stop_ := s.pool.stop_ },
                   futures := futures,
                   invoked := s.invoked ++ [task] })
    | .threw e => .threw e

/-- The destructor `TaskPool::~TaskPool`: `stop_ = true`, the workers are woken and
joined (each of their next steps returns `false`), and then the members are destroyed,
among them `tasks_` with every unit still queued. -/
def TaskPool.destructor {V E : Type} (s : System V E) : System V E :=
  { pool := { tasks_ := [], stop_ := true },
    futures := s.pool.tasks_.foldl (fun fs u => u.destroy fs) s.futures,
    invoked := s.invoked }

/-- One call `enqueue(pri, f, args...)`: the priority, the bound callable, and the
clock reading `now` of the constructor of the unit. -/
structure Submission (V E : Type) where
  now : Int
  pri : Priority
  f : Outcome V E
  deriving DecidableEq, Repr

/-- Submits a sequence of calls of `enqueue`, in order.  -/
def submitAll {V E : Type} : List (Submission V E) → System V E → System V E
  | [], s => s
  | x :: xs, s => submitAll xs (TaskPool.enqueue x.now x.pri x.f s).2

/-- One operation on the pool: a call of `enqueue` or one worker step.  -/
inductive Op (V E : Type) where
  | enqueue (x : Submission V E)
  | DoTask (now : Int)
  deriving DecidableEq, Repr

/-- Runs a sequence of operations, stopping at the first exception.  -/
def run {V E : Type} : List (Op V E) → System V E → Res (System V E)
  | [], s => .ok s
  | .enqueue x :: ops, s => run ops (TaskPool.enqueue x.now x.pri x.f s).2
  | .DoTask now :: ops, s =>
    match TaskPool.DoTask now s with
    | .ok (_, s') => run ops s'
    | .threw e => .threw e

/-- The worker loop `while (DoTask());`, one iteration per clock reading.  -/
def workerLoop {V E : Type} : List Int → System V E → Res (System V E)
  | [], s => .ok s
  | now :: nows, s =>
    match TaskPool.DoTask now s with
    | .ok (true, s') => workerLoop nows s'
    | .ok (false, s') => .ok s'
    | .threw e => .threw e


/-! ## Example inputs -/

/-- The four submissions of `main` in `test_main.cc`: `AddFunc(1, 2)` and `SubFunc()(3)`
at priority 0, then `mf.mul(2, 3)` and `divfunc(8, 2)` at priority 1, with four
increasing clock readings. -/
def test_main_subs : List (Submission Int Nat) :=
  [{ now := 10, pri := 0, f := Outcome.value (1 + 2) },
   { now := 11, pri := 0, f := Outcome.value (3 - 2) },
   { now := 12, pri := 1, f := Outcome.value (2 * 3) },
   { now := 13, pri := 1, f := Outcome.value (8 / 2) }]

/-- The pool of `main` with its four units queued, after the destructor has set the
stop flag. -/
def stopped_pool : System Int Nat :=
  { pool := { tasks_ := (submitAll test_main_subs TaskPool.new).pool.tasks_, stop_ := true },
    futures := (submitAll test_main_subs TaskPool.new).futures,
    invoked := [] }

/-- The submissions of `main`, one worker step, and one more submission.  -/
def mixed_ops : List (Op Int Nat) :=
  [Op.enqueue { now := 10, pri := 0, f := Outcome.value (1 + 2) },
   Op.enqueue { now := 11, pri := 0, f := Outcome.value (3 - 2) },
   Op.enqueue { now := 12, pri := 1, f := Outcome.value (2 * 3) },
   Op.DoTask 13,
   Op.enqueue { now := 14, pri := 1, f := Outcome.value (8 / 2) }]

/-- The state that `mixed_ops` reaches from a fresh pool: `Mul` has run, `Add`, `Sub`
and `Div` are queued. -/
def mixed_state : System Int Nat :=
  { pool :=
      { tasks_ :=
          [{ task_ := some { shared := 3, callable := Outcome.value 4 },
             priority_ := 1, timestamp_ := 14 },
           { task_ := some { shared := 1, callable := Outcome.value 1 },
             priority_ := 0, timestamp_ := 11 },
           { task_ := some { shared := 0, callable := Outcome.value 3 },
             priority_ := 0, timestamp_ := 10 }],
        stop_ := false },
    futures := [SharedState.pending, SharedState.pending, SharedState.value 6,
      SharedState.pending],
    invoked :=
      [{ task_ := some { shared := 2, callable := Outcome.value 6 },
         priority_ := 1, timestamp_ := 12 }] }

section Spec

variable {α : Type}

/-- The requirement of `std::priority_queue` on its comparator: a strict weak
ordering. -/
structure StrictWeak (lt : α → α → Bool) : Prop where
  irrefl : ∀ a, lt a a = false
  trans : ∀ a b c, lt a b = true → lt b c = true → lt a c = true
  negTrans : ∀ a b c, lt a b = false → lt b c = false → lt a c = false

/-- The predicate `std::is_heap` on the first `n` elements: no element is less than the
element at a child index. -/
def IsHeap (lt : α → α → Bool) (a : List α) (n : Nat) : Prop :=
  ∀ i x y, 0 < i → i < n → a[(i - 1) / 2]? = some x → a[i]? = some y → lt x y = false

/-- The loop invariant of `std::__push_heap`: the first `n` elements are a heap except
for the link from the hole `h` to its parent (`1`), the value `v` still to be stored
is not less than a child of the hole (`2`), and neither is the parent of the hole (`3`). -/
def HoleUp (lt : α → α → Bool) (a : List α) (n h : Nat) (v : α) : Prop :=
  (∀ i x y, 0 < i → i < n → i ≠ h → a[(i - 1) / 2]? = some x → a[i]? = some y →
    lt x y = false) ∧
  (∀ i y, 0 < i → i < n → (i - 1) / 2 = h → a[i]? = some y → lt v y = false) ∧
  (∀ i x y, 0 < i → i < n → (i - 1) / 2 = h → 0 < h → a[(h - 1) / 2]? = some x →
    a[i]? = some y → lt x y = false)

end Spec

section SpecPool

variable {V E : Type}

/-- The shared state a callable leaves behind once it has run.  -/
def Outcome.stored : Outcome V E → SharedState V E
  | .value v => .value v
  | .failure e => .failure e

/-- The handle of a unit: the index of the shared state of its package.  -/
def TaskUnit.handle (u : TaskUnit V E) : Option Nat :=
  u.task_.map PackagedTask.shared

/-- The units that `enqueue` constructs for a sequence of submissions, in submission
order, when the first of them receives the handle `k`. -/
def unitsFrom : Nat → List (Submission V E) → List (TaskUnit V E)
  | _, [] => []
  | k, x :: xs =>
    TaskUnit.new (some { shared := k, callable := x.f }) x.pri x.now :: unitsFrom (k + 1) xs

/-- The submissions among a sequence of operations, in order.  -/
def submissions : List (Op V E) → List (Submission V E)
  | [] => []
  | .enqueue x :: ops => x :: submissions ops
  | .DoTask _ :: ops => submissions ops

/-- The invariant of the pool relative to the list `subm` of all units submitted so
far: the queue is a heap, the units invoked and the units queued are together exactly
the units submitted, the `k`-th unit submitted owns the `k`-th shared state, the shared
state of a queued unit is pending and that of an invoked unit holds its outcome. -/
structure Good (s : System V E) (subm : List (TaskUnit V E)) : Prop where
  heap : IsHeap TaskUnit.lt s.pool.tasks_ s.pool.tasks_.length
  perm : (s.invoked ++ s.pool.tasks_).Perm subm
  ids : subm.map TaskUnit.handle = (List.range s.futures.length).map some
  pend : ∀ u ∈ s.pool.tasks_, ∀ p, u.task_ = some p →
    s.futures[p.shared]? = some SharedState.pending
  done : ∀ u ∈ s.invoked, ∀ p, u.task_ = some p →
    s.futures[p.shared]? = some p.callable.stored

end SpecPool

/-! ## Correctness of the heap algorithms -/

section HeapLemmas

variable {α : Type}

theorem StrictWeak.asymm {lt : α → α → Bool} (sw : StrictWeak lt) {a b : α}
    (h : lt a b = true) : lt b a = false := by
  cases hba : lt b a with
  | false => rfl
  | true =>
    have h2 := sw.trans a b a h hba
    rw [sw.irrefl] at h2
    cases h2

theorem assignFrom_eq {a : List α} {dst src : Nat} {x : α} (h : a[src]? = some x) :
    assignFrom a dst src = a.set dst x := by
  simp [assignFrom, h]

theorem length_assignFrom (a : List α) (dst src : Nat) :
    (assignFrom a dst src).length = a.length := by
  unfold assignFrom
  split <;> simp

theorem length_push_heap_loop (lt : α → α → Bool) (v : α) (t : Nat) :
    ∀ (fuel : Nat) (a : List α) (h : Nat), (push_heap_loop lt v t fuel a h).length = a.length
  | 0, a, h => by simp [push_heap_loop]
  | fuel + 1, a, h => by
    simp only [push_heap_loop]
    split
    · rw [length_push_heap_loop lt v t fuel, length_assignFrom]
    · simp

theorem length_adjust_heap_loop (lt : α → α → Bool) (n : Nat) :
    ∀ (fuel : Nat) (a : List α) (h : Nat), (adjust_heap_loop lt n fuel a h).1.length = a.length
  | 0, a, h => by simp [adjust_heap_loop]
  | fuel + 1, a, h => by
    simp only [adjust_heap_loop]
    split
    · rw [length_adjust_heap_loop lt n fuel, length_assignFrom]
    · rfl

/-- The iteration bound of `push_heap_loop` is never the reason the loop ends: any two
bounds of at least `holeIndex` give the same result. -/
theorem push_heap_loop_fuel (lt : α → α → Bool) (v : α) (t : Nat) :
    ∀ (f1 f2 : Nat) (a : List α) (h : Nat), h ≤ f1 → h ≤ f2 →
      push_heap_loop lt v t f1 a h = push_heap_loop lt v t f2 a h
  | 0, 0, _, _, _, _ => rfl
  | 0, f2 + 1, a, h, h1, _ => by
    have h0 : h = 0 := by omega
    subst h0
    simp [push_heap_loop]
  | f1 + 1, 0, a, h, _, h2 => by
    have h0 : h = 0 := by omega
    subst h0
    simp [push_heap_loop]
  | f1 + 1, f2 + 1, a, h, h1, h2 => by
    simp only [push_heap_loop]
    split
    · rename_i hc
      rw [Bool.and_eq_true, decide_eq_true_eq] at hc
      exact push_heap_loop_fuel lt v t f1 f2 _ _ (by omega) (by omega)
    · rfl

/-- The iteration bound of `adjust_heap_loop` is never the reason the loop ends: any
two bounds of at least `len - holeIndex` give the same result. -/
theorem adjust_heap_loop_fuel (lt : α → α → Bool) (n : Nat) :
    ∀ (f1 f2 : Nat) (a : List α) (h : Nat), n ≤ h + f1 → n ≤ h + f2 →
      adjust_heap_loop lt n f1 a h = adjust_heap_loop lt n f2 a h
  | 0, 0, _, _, _, _ => rfl
  | 0, f2 + 1, a, h, h1, _ => by
    have hn : ¬ h < (n - 1) / 2 := by omega
    simp [adjust_heap_loop, hn]
  | f1 + 1, 0, a, h, _, h2 => by
    have hn : ¬ h < (n - 1) / 2 := by omega
    simp [adjust_heap_loop, hn]
  | f1 + 1, f2 + 1, a, h, h1, h2 => by
    simp only [adjust_heap_loop]
    split
    · refine adjust_heap_loop_fuel lt n f1 f2 _ _ ?_ ?_ <;> split <;> omega
    · rfl

/-- Moving the element at `j` into slot `i` and then storing `v` at `j` leaves the same
multiset as storing `v` at `i`. -/
theorem set_set_perm (a : List α) {i j : Nat} (hi : i < a.length) (hj : j < a.length)
    (hij : i ≠ j) (x v : α) (hx : a[j]? = some x) :
    ((a.set i x).set j v).Perm (a.set i v) := by
  classical
  rw [List.perm_iff_count]
  intro b
  have hj2 : j < (a.set i x).length := by simpa using hj
  have hxj : a[j] = x := by
    rw [List.getElem?_eq_getElem hj] at hx
    exact Option.some.inj hx
  rw [List.count_set _ _ _ _ hj2, List.count_set _ _ _ _ hi, List.count_set _ _ _ _ hi]
  have e : (a.set i x)[j] = x := by
    rw [List.getElem_set_ne hij]
    exact hxj
  rw [e]
  omega

theorem iterLessVal_true {lt : α → α → Bool} {a : List α} {i : Nat} {v : α}
    (h : iterLessVal lt a i v = true) : ∃ x, a[i]? = some x ∧ lt x v = true := by
  unfold iterLessVal at h
  split at h
  · rename_i x hx
    exact ⟨x, hx, h⟩
  · cases h

theorem iterLessVal_false {lt : α → α → Bool} {a : List α} {i : Nat} {v x : α}
    (h : iterLessVal lt a i v = false) (hx : a[i]? = some x) : lt x v = false := by
  simpa [iterLessVal, hx] using h

theorem perm_push_heap_loop (lt : α → α → Bool) (v : α) (t : Nat) :
    ∀ (fuel : Nat) (a : List α) (h : Nat), h < a.length →
      (push_heap_loop lt v t fuel a h).Perm (a.set h v)
  | 0, a, h, _ => by simp [push_heap_loop]
  | fuel + 1, a, h, hh => by
    simp only [push_heap_loop]
    split
    · rename_i hc
      rw [Bool.and_eq_true, decide_eq_true_eq] at hc
      obtain ⟨x, hx, _⟩ := iterLessVal_true hc.2
      have hp : (h - 1) / 2 < a.length := by omega
      have hne : h ≠ (h - 1) / 2 := by omega
      rw [assignFrom_eq hx]
      refine (perm_push_heap_loop lt v t fuel _ _ (by simpa using hp)).trans ?_
      exact set_set_perm a hh hp hne x v hx
    · exact List.Perm.refl _

theorem getElem?_push_heap_loop_of_lt (lt : α → α → Bool) (v : α) (t : Nat) :
    ∀ (fuel : Nat) (a : List α) (h i : Nat), h < i →
      (push_heap_loop lt v t fuel a h)[i]? = a[i]?
  | 0, a, h, i, hi => by
    simp only [push_heap_loop]
    rw [List.getElem?_set_ne (by omega)]
  | fuel + 1, a, h, i, hi => by
    simp only [push_heap_loop]
    split
    · rw [getElem?_push_heap_loop_of_lt lt v t fuel _ _ i (by omega)]
      unfold assignFrom
      split
      · rw [List.getElem?_set_ne (by omega)]
      · rfl
    · rw [List.getElem?_set_ne (by omega)]

theorem HoleUp.exit {lt : α → α → Bool} {a : List α} {n h : Nat} {v : α}
    (hu : HoleUp lt a n h v) (hn : n ≤ a.length)
    (hexit : h = 0 ∨ ∃ x, a[(h - 1) / 2]? = some x ∧ lt x v = false) :
    IsHeap lt (a.set h v) n := by
  obtain ⟨hI, hJ, _⟩ := hu
  intro i x y hi hin hx hy
  rw [List.getElem?_set] at hx hy
  by_cases hih : h = i
  · subst hih
    have hne : ¬ h = (h - 1) / 2 := by omega
    rw [if_neg hne] at hx
    rw [if_pos rfl, if_pos (by omega)] at hy
    cases hy
    rcases hexit with h0 | ⟨x', hx', hlt⟩
    · omega
    · rw [hx] at hx'
      cases hx'
      exact hlt
  · rw [if_neg hih] at hy
    by_cases hp : h = (i - 1) / 2
    · rw [if_pos hp, if_pos (by omega)] at hx
      cases hx
      exact hJ i y hi hin hp.symm hy
    · rw [if_neg hp] at hx
      exact hI i x y hi hin (fun e => hih e.symm) hx hy

theorem HoleUp.step {lt : α → α → Bool} (sw : StrictWeak lt) {a : List α} {n h : Nat}
    {v x : α} (hu : HoleUp lt a n h v) (hn : n ≤ a.length) (hh : h < n) (h0 : 0 < h)
    (hx : a[(h - 1) / 2]? = some x) (hlt : lt x v = true) :
    HoleUp lt (a.set h x) n ((h - 1) / 2) v := by
  obtain ⟨hI, hJ, hK⟩ := hu
  have hph : (h - 1) / 2 < h := by omega
  refine ⟨?_, ?_, ?_⟩
  · intro i x' y' hi hin hne hx' hy'
    rw [List.getElem?_set] at hx' hy'
    by_cases hih : h = i
    · subst hih
      rw [if_neg (by omega)] at hx'
      rw [if_pos rfl, if_pos (by omega)] at hy'
      cases hy'
      rw [hx] at hx'
      cases hx'
      exact sw.irrefl _
    · rw [if_neg hih] at hy'
      by_cases hp : h = (i - 1) / 2
      · rw [if_pos hp, if_pos (by omega)] at hx'
        cases hx'
        exact hK i x y' hi hin hp.symm h0 hx hy'
      · rw [if_neg hp] at hx'
        exact hI i x' y' hi hin (fun e => hih e.symm) hx' hy'
  · intro i y' hi hin hp hy'
    rw [List.getElem?_set] at hy'
    by_cases hih : h = i
    · subst hih
      rw [if_pos rfl, if_pos (by omega)] at hy'
      cases hy'
      exact sw.asymm hlt
    · rw [if_neg hih] at hy'
      have h1 : lt x y' = false :=
        hI i x y' hi hin (fun e => hih e.symm) (by rw [hp]; exact hx) hy'
      cases hvy : lt v y' with
      | false => rfl
      | true =>
        rw [sw.trans x v y' hlt hvy] at h1
        cases h1
  · intro i x' y' hi hin hp hpos hx' hy'
    rw [List.getElem?_set] at hx' hy'
    rw [if_neg (by omega)] at hx'
    have h2 : lt x' x = false :=
      hI ((h - 1) / 2) x' x hpos (by omega) (by omega) hx' hx
    by_cases hih : h = i
    · subst hih
      rw [if_pos rfl, if_pos (by omega)] at hy'
      cases hy'
      exact h2
    · rw [if_neg hih] at hy'
      have h1 : lt x y' = false :=
        hI i x y' hi hin (fun e => hih e.symm) (by rw [hp]; exact hx) hy'
      exact sw.negTrans _ _ _ h2 h1

theorem isHeap_push_heap_loop {lt : α → α → Bool} (sw : StrictWeak lt) (v : α) (n : Nat) :
    ∀ (fuel : Nat) (a : List α) (h : Nat), n ≤ a.length → h < n → h ≤ fuel →
      HoleUp lt a n h v → IsHeap lt (push_heap_loop lt v 0 fuel a h) n
  | 0, a, h, hn, _, hf, hu => by
    simp only [push_heap_loop]
    exact hu.exit hn (Or.inl (by omega))
  | fuel + 1, a, h, hn, hh, hf, hu => by
    simp only [push_heap_loop]
    split
    · rename_i hc
      rw [Bool.and_eq_true, decide_eq_true_eq] at hc
      obtain ⟨x, hx, hlt⟩ := iterLessVal_true hc.2
      rw [assignFrom_eq hx]
      exact isHeap_push_heap_loop sw v n fuel _ _ (by simpa using hn) (by omega) (by omega)
        (hu.step sw hn hh hc.1 hx hlt)
    · rename_i hc
      rw [Bool.and_eq_true, decide_eq_true_eq, not_and_or] at hc
      refine hu.exit hn ?_
      rcases hc with h0 | hc
      · exact Or.inl (by omega)
      · have hp : (h - 1) / 2 < a.length := by omega
        refine Or.inr ⟨a[(h - 1) / 2], List.getElem?_eq_getElem hp, ?_⟩
        exact iterLessVal_false (by simpa using hc) (List.getElem?_eq_getElem hp)

/-- Moving a largest child `z` of `h` up into `h` keeps the first `n` elements a heap. -/
theorem IsHeap.set_child {lt : α → α → Bool} (sw : StrictWeak lt) {a : List α}
    {n h c : Nat} {z : α} (hp : IsHeap lt a n) (hn : n ≤ a.length) (hcn : c < n)
    (hc0 : 0 < c) (hch : (c - 1) / 2 = h) (hz : a[c]? = some z)
    (hmax : ∀ i y, 0 < i → i < n → (i - 1) / 2 = h → a[i]? = some y → lt z y = false) :
    IsHeap lt (a.set h z) n := by
  have hhc : h < c := by omega
  intro i x y hi hin hx hy
  rw [List.getElem?_set] at hx hy
  by_cases hih : h = i
  · subst hih
    rw [if_neg (by omega)] at hx
    rw [if_pos rfl, if_pos (by omega)] at hy
    cases hy
    have hh : h < a.length := by omega
    have h1 : lt x a[h] = false := hp h x a[h] hi hin hx (List.getElem?_eq_getElem hh)
    have h2 : lt a[h] z = false :=
      hp c a[h] z hc0 hcn (by rw [hch]; exact List.getElem?_eq_getElem hh) hz
    exact sw.negTrans _ _ _ h1 h2
  · rw [if_neg hih] at hy
    by_cases hpi : h = (i - 1) / 2
    · rw [if_pos hpi, if_pos (by omega)] at hx
      cases hx
      exact hmax i y hi hin hpi.symm hy
    · rw [if_neg hpi] at hx
      exact hp i x y hi hin hx hy

theorem iterLessIter_eq {lt : α → α → Bool} {a : List α} {i j : Nat} {x y : α}
    (hx : a[i]? = some x) (hy : a[j]? = some y) : iterLessIter lt a i j = lt x y := by
  simp [iterLessIter, hx, hy]

/-- One iteration of the loop of `std::__adjust_heap` keeps the heap. -/
theorem IsHeap.descend {lt : α → α → Bool} (sw : StrictWeak lt) {a : List α} {n h : Nat}
    (hp : IsHeap lt a n) (hn : n ≤ a.length) (hh : h < (n - 1) / 2) (sc : Nat)
    (hsc : sc = if iterLessIter lt a (2 * (h + 1)) (2 * (h + 1) - 1) then 2 * (h + 1) - 1
      else 2 * (h + 1)) :
    IsHeap lt (assignFrom a h sc) n ∧ h < sc ∧ sc < n ∧
      ∃ z, a[sc]? = some z ∧ assignFrom a h sc = a.set h z := by
  have hr : 2 * (h + 1) < a.length := by omega
  have hl : 2 * (h + 1) - 1 < a.length := by omega
  have er := List.getElem?_eq_getElem hr
  have el := List.getElem?_eq_getElem hl
  have hcmp : iterLessIter lt a (2 * (h + 1)) (2 * (h + 1) - 1) =
      lt a[2 * (h + 1)] a[2 * (h + 1) - 1] := iterLessIter_eq er el
  by_cases hc : iterLessIter lt a (2 * (h + 1)) (2 * (h + 1) - 1) = true
  · rw [if_pos hc] at hsc
    subst hsc
    refine ⟨?_, by omega, by omega, _, el, assignFrom_eq el⟩
    rw [assignFrom_eq el]
    refine hp.set_child sw hn (by omega) (by omega) (by omega) el ?_
    intro i y hi hin hpi hy
    have hcases : i = 2 * (h + 1) - 1 ∨ i = 2 * (h + 1) := by omega
    rcases hcases with e | e
    · subst e
      rw [el] at hy
      cases hy
      exact sw.irrefl _
    · subst e
      rw [er] at hy
      cases hy
      rw [hcmp] at hc
      exact sw.asymm hc
  · rw [if_neg hc] at hsc
    subst hsc
    refine ⟨?_, by omega, by omega, _, er, assignFrom_eq er⟩
    rw [assignFrom_eq er]
    refine hp.set_child sw hn (by omega) (by omega) (by omega) er ?_
    intro i y hi hin hpi hy
    have hcases : i = 2 * (h + 1) - 1 ∨ i = 2 * (h + 1) := by omega
    rcases hcases with e | e
    · subst e
      rw [el] at hy
      cases hy
      rw [hcmp] at hc
      simpa using hc
    · subst e
      rw [er] at hy
      cases hy
      exact sw.irrefl _

/-- The loop of `std::__adjust_heap`, started with enough iterations: the first `n`
elements stay a heap, the hole ends at an index `r.2 < n` with `r.2 ≥ (n - 1) / 2`, the
elements from `n` on are untouched, and storing any `v` in the final hole gives the
multiset of storing `v` in the initial hole. -/
theorem adjust_heap_loop_spec {lt : α → α → Bool} (sw : StrictWeak lt) (n : Nat) :
    ∀ (fuel : Nat) (a : List α) (h : Nat), n ≤ a.length → h < n → n ≤ h + fuel →
      IsHeap lt a n →
      IsHeap lt (adjust_heap_loop lt n fuel a h).1 n ∧
      (adjust_heap_loop lt n fuel a h).2 < n ∧
      ¬ (adjust_heap_loop lt n fuel a h).2 < (n - 1) / 2 ∧
      (∀ i, n ≤ i → (adjust_heap_loop lt n fuel a h).1[i]? = a[i]?) ∧
      (∀ v, ((adjust_heap_loop lt n fuel a h).1.set (adjust_heap_loop lt n fuel a h).2 v).Perm
        (a.set h v))
  | 0, a, h, hn, hh, hf, hp => by
    simp only [adjust_heap_loop]
    exact ⟨hp, hh, by omega, fun _ _ => trivial, fun _ => List.Perm.refl _⟩
  | fuel + 1, a, h, hn, hh, hf, hp => by
    simp only [adjust_heap_loop]
    split
    · rename_i hlt
      obtain ⟨hp', h1, h2, z, hz, he⟩ := hp.descend sw hn hlt _ rfl
      have ih := adjust_heap_loop_spec sw n fuel _ _
        (by rw [length_assignFrom]; exact hn) h2 (by omega) hp'
      obtain ⟨i1, i2, i3, i4, i5⟩ := ih
      refine ⟨i1, i2, i3, ?_, ?_⟩
      · intro i hi
        rw [i4 i hi, he, List.getElem?_set_ne (by omega)]
      · intro v
        refine (i5 v).trans ?_
        rw [he]
        exact set_set_perm a (by omega) (by omega) (by omega) z v hz
    · rename_i hlt
      exact ⟨hp, hh, hlt, fun _ _ => rfl, fun _ => List.Perm.refl _⟩

/-- The function `std::__adjust_heap` from the root: the first `n` elements become a
heap again, the length and the elements from `n` on are kept, and the result is a
permutation of the vector with `v` stored at the root. -/
theorem adjust_heap_spec {lt : α → α → Bool} (sw : StrictWeak lt) (a : List α) (n : Nat)
    (v : α) (hn : n ≤ a.length) (h0 : 0 < n) (hp : IsHeap lt a n) :
    IsHeap lt (adjust_heap lt a 0 n v) n ∧
    (adjust_heap lt a 0 n v).length = a.length ∧
    (∀ i, n ≤ i → (adjust_heap lt a 0 n v)[i]? = a[i]?) ∧
    (adjust_heap lt a 0 n v).Perm (a.set 0 v) := by
  obtain ⟨l1, l2, l3, l4, l5⟩ := adjust_heap_loop_spec sw n n a 0 hn h0 (by omega) hp
  have hlen := length_adjust_heap_loop lt n n a 0
  unfold adjust_heap
  simp only
  generalize adjust_heap_loop lt n n a 0 = r at l1 l2 l3 l4 l5 hlen
  obtain ⟨b, k⟩ := r
  simp only at l1 l2 l3 l4 l5 hlen
  by_cases hev : (n % 2 = 0 && k = (n - 2) / 2) = true
  · rw [if_pos hev]
    simp only
    rw [Bool.and_eq_true, decide_eq_true_eq, decide_eq_true_eq] at hev
    have hc : 2 * (k + 1) - 1 < b.length := by omega
    have ec := List.getElem?_eq_getElem hc
    rw [assignFrom_eq ec]
    have hp2 : IsHeap lt (b.set k b[2 * (k + 1) - 1]) n := by
      refine l1.set_child sw (by omega) (by omega) (by omega) (by omega) ec ?_
      intro i y hi hin hpi hy
      have e : i = 2 * (k + 1) - 1 := by omega
      subst e
      rw [ec] at hy
      cases hy
      exact sw.irrefl _
    have hu : HoleUp lt (b.set k b[2 * (k + 1) - 1]) n (2 * (k + 1) - 1) v := by
      refine ⟨fun i x y hi hin _ hx hy => hp2 i x y hi hin hx hy, ?_, ?_⟩
      · intro i y hi hin hpi
        omega
      · intro i x y hi hin hpi
        omega
    refine ⟨?_, ?_, ?_, ?_⟩
    · exact isHeap_push_heap_loop sw v n _ _ _ (by simp; omega) (by omega) (le_refl _) hu
    · unfold push_heap_aux
      rw [length_push_heap_loop]
      simp [hlen]
    · intro i hi
      unfold push_heap_aux
      rw [getElem?_push_heap_loop_of_lt _ _ _ _ _ _ _ (by omega),
        List.getElem?_set_ne (by omega), l4 i hi]
    · unfold push_heap_aux
      refine (perm_push_heap_loop lt v 0 _ _ _ (by simp; omega)).trans ?_
      refine (set_set_perm b (by omega) hc (by omega) _ v ec).trans ?_
      exact l5 v
  · rw [if_neg hev]
    simp only
    rw [Bool.and_eq_true, decide_eq_true_eq, decide_eq_true_eq, not_and_or] at hev
    have hu : HoleUp lt b n k v := by
      refine ⟨fun i x y hi hin _ hx hy => l1 i x y hi hin hx hy, ?_, ?_⟩
      · intro i y hi hin hpi
        omega
      · intro i x y hi hin hpi
        omega
    refine ⟨?_, ?_, ?_, ?_⟩
    · exact isHeap_push_heap_loop sw v n _ _ _ (by omega) (by omega) (le_refl _) hu
    · unfold push_heap_aux
      rw [length_push_heap_loop]
      exact hlen
    · intro i hi
      unfold push_heap_aux
      rw [getElem?_push_heap_loop_of_lt _ _ _ _ _ _ _ (by omega), l4 i hi]
    · unfold push_heap_aux
      exact (perm_push_heap_loop lt v 0 _ _ _ (by omega)).trans (l5 v)

/-- In a heap no element is greater than the first one. -/
theorem IsHeap.root_max {lt : α → α → Bool} (sw : StrictWeak lt) {a : List α} {n : Nat}
    (hp : IsHeap lt a n) (hn : n ≤ a.length) {t : α} (ht : a[0]? = some t) :
    ∀ i y, i < n → a[i]? = some y → lt t y = false := by
  intro i
  induction i using Nat.strong_induction_on with
  | _ i ih =>
    intro y hi hy
    by_cases h0 : i = 0
    · subst h0
      rw [ht] at hy
      cases hy
      exact sw.irrefl _
    · have hpi : (i - 1) / 2 < a.length := by omega
      have h1 := ih ((i - 1) / 2) (by omega) a[(i - 1) / 2] (by omega)
        (List.getElem?_eq_getElem hpi)
      have h2 := hp i _ y (by omega) hi (List.getElem?_eq_getElem hpi) hy
      exact sw.negTrans _ _ _ h1 h2

theorem set_eq_self_of_getElem? {a : List α} {i : Nat} {v : α} (h : a[i]? = some v) :
    a.set i v = a := by
  apply List.ext_getElem?
  intro j
  rw [List.getElem?_set]
  by_cases hij : i = j
  · subst hij
    have hlt : i < a.length := by
      by_contra hge
      rw [List.getElem?_eq_none (by omega)] at h
      cases h
    rw [if_pos rfl, if_pos hlt, h]
  · rw [if_neg hij]

/-- The member `emplace` of the priority queue keeps the heap and adds exactly `x`. -/
theorem pq_emplace_spec {lt : α → α → Bool} (sw : StrictWeak lt) (q : List α) (x : α)
    (hp : IsHeap lt q q.length) :
    IsHeap lt (pq_emplace lt q x) (pq_emplace lt q x).length ∧
    (pq_emplace lt q x).Perm (q ++ [x]) := by
  have hlast : (q ++ [x]).getLast? = some x := List.getLast?_concat q
  have hlen : (q ++ [x]).length - 1 = q.length := by simp
  have hx : (q ++ [x])[q.length]? = some x := by
    rw [List.getElem?_append_right (le_refl _)]
    simp
  have e : pq_emplace lt q x = push_heap_loop lt x 0 q.length (q ++ [x]) q.length := by
    simp only [pq_emplace, push_heap, hlast, push_heap_aux, hlen]
  have hl : (pq_emplace lt q x).length = q.length + 1 := by
    rw [e, length_push_heap_loop]
    simp
  rw [hl, e]
  constructor
  · refine isHeap_push_heap_loop sw x (q.length + 1) _ _ _ (by simp) (by omega) (le_refl _) ?_
    refine ⟨?_, ?_, ?_⟩
    · intro i a b hi hin hne ha hb
      rw [List.getElem?_append_left (by omega)] at ha hb
      exact hp i a b hi (by omega) ha hb
    · intro i y hi hin hpi
      omega
    · intro i a b hi hin hpi
      omega
  · refine (perm_push_heap_loop lt x 0 _ _ _ (by simp)).trans ?_
    rw [set_eq_self_of_getElem? hx]

/-- The member `pop` of the priority queue keeps the heap and removes exactly the
first element. -/
theorem pq_pop_spec {lt : α → α → Bool} (sw : StrictWeak lt) (q : List α) (t : α)
    (ht : q[0]? = some t) (hp : IsHeap lt q q.length) :
    IsHeap lt (pq_pop lt q) (pq_pop lt q).length ∧ (t :: pq_pop lt q).Perm q := by
  have hpos : 0 < q.length := by
    by_contra hge
    rw [List.getElem?_eq_none (by omega)] at ht
    cases ht
  by_cases h1 : q.length > 1
  · have hnl : q.length - 1 < q.length := by omega
    have hv : q[q.length - 1]? = some q[q.length - 1] := List.getElem?_eq_getElem hnl
    have hlast : q.getLast? = some q[q.length - 1] := by
      rw [List.getLast?_eq_getElem?, hv]
    have e : pop_heap lt q =
        adjust_heap lt (q.set (q.length - 1) t) 0 (q.length - 1) q[q.length - 1] := by
      simp only [pop_heap, if_pos h1, hlast, assignFrom_eq ht]
    have hpa : IsHeap lt (q.set (q.length - 1) t) (q.length - 1) := by
      intro i x y hi hin hx hy
      rw [List.getElem?_set_ne (by omega)] at hx hy
      exact hp i x y hi (by omega) hx hy
    obtain ⟨r1, r2, r3, r4⟩ := adjust_heap_spec sw (q.set (q.length - 1) t) (q.length - 1)
      q[q.length - 1] (by simp) (by omega) hpa
    rw [← e] at r1 r2 r3 r4
    rw [List.length_set] at r2
    have hrl : (pop_heap lt q)[q.length - 1]? = some t := by
      rw [r3 _ (le_refl _), List.getElem?_set_self hnl]
    have hperm : (pop_heap lt q).Perm q := by
      refine r4.trans ?_
      refine (set_set_perm q hnl hpos (by omega) t _ ht).trans ?_
      rw [set_eq_self_of_getElem? hv]
    have hdl : (pq_pop lt q).length = q.length - 1 := by
      simp [pq_pop, r2]
    constructor
    · rw [hdl]
      intro i x y hi hin hx hy
      unfold pq_pop at hx hy
      rw [List.getElem?_dropLast, if_pos (by omega)] at hx hy
      exact r1 i x y hi hin hx hy
    · have hgl : (pop_heap lt q).getLast? = some t := by
        rw [List.getLast?_eq_getElem?, r2, hrl]
      have := List.dropLast_append_getLast? t (by rw [hgl]; exact rfl)
      refine ((List.perm_append_singleton t _).symm.trans ?_).trans hperm
      unfold pq_pop
      rw [this]
  · have hc : q = [t] := by
      match q, ht, hpos, h1 with
      | [x], ht, _, _ =>
        simp at ht
        rw [ht]
      | _ :: _ :: _, _, _, h1 => simp at h1
    subst hc
    constructor
    · intro i x y hi hin
      simp [pq_pop, pop_heap] at hin
    · simp [pq_pop, pop_heap]

end HeapLemmas

/-! ## The ordering of task units -/

section Order

variable {V E : Type}

theorem TaskUnit.lt_true_iff (a b : TaskUnit V E) :
    a.lt b = true ↔ a.priority_.val < b.priority_.val ∨
      (a.priority_.val = b.priority_.val ∧ b.timestamp_ < a.timestamp_) := by
  unfold TaskUnit.lt
  by_cases h : a.priority_ = b.priority_
  · rw [if_pos h, decide_eq_true_eq]
    have := congrArg Fin.val h
    constructor
    · intro h1
      exact Or.inr ⟨this, h1⟩
    · rintro (h1 | ⟨_, h1⟩)
      · omega
      · exact h1
  · rw [if_neg h, decide_eq_true_eq, Fin.lt_def]
    have : a.priority_.val ≠ b.priority_.val := fun e => h (Fin.ext e)
    constructor
    · intro h1
      exact Or.inl h1
    · rintro (h1 | ⟨h1, _⟩)
      · exact h1
      · exact absurd h1 this

theorem TaskUnit.lt_false_iff (a b : TaskUnit V E) :
    a.lt b = false ↔ b.priority_.val < a.priority_.val ∨
      (a.priority_.val = b.priority_.val ∧ a.timestamp_ ≤ b.timestamp_) := by
  rw [← Bool.not_eq_true, TaskUnit.lt_true_iff]
  omega

/-- The comparator of the queue is a strict weak ordering. -/
theorem TaskUnit.lt_strictWeak : StrictWeak (TaskUnit.lt : TaskUnit V E → TaskUnit V E → Bool) where
  irrefl a := by
    rw [TaskUnit.lt_false_iff]
    omega
  trans a b c := by
    rw [TaskUnit.lt_true_iff, TaskUnit.lt_true_iff, TaskUnit.lt_true_iff]
    omega
  negTrans a b c := by
    rw [TaskUnit.lt_false_iff, TaskUnit.lt_false_iff, TaskUnit.lt_false_iff]
    omega

/-- C1: a unit `A` orders above a unit `B`, that is `B < A` under
`TaskUnit::operator<`, exactly when `A` has the greater priority, or the priorities are
equal and `A` has the smaller timestamp. -/
theorem TaskUnit.orders_above_iff (A B : TaskUnit V E) :
    B.lt A = true ↔
      A.priority_ > B.priority_ ∨
        (A.priority_ = B.priority_ ∧ A.timestamp_ < B.timestamp_) := by
  rw [TaskUnit.lt_true_iff, gt_iff_lt, Fin.lt_def, Fin.ext_iff]
  omega

/-- C10: `TaskUnit::operator<` is a strict weak ordering: it is irreflexive, asymmetric
and transitive, two units are incomparable exactly when their priorities and their
timestamps are equal, and incomparability is an equivalence relation. -/
theorem TaskUnit.lt_strict_weak_ordering :
    (∀ a : TaskUnit V E, a.lt a = false) ∧
    (∀ a b : TaskUnit V E, a.lt b = true → b.lt a = false) ∧
    (∀ a b c : TaskUnit V E, a.lt b = true → b.lt c = true → a.lt c = true) ∧
    (∀ a b : TaskUnit V E, (a.lt b = false ∧ b.lt a = false) ↔
      (a.priority_ = b.priority_ ∧ a.timestamp_ = b.timestamp_)) ∧
    Equivalence (fun a b : TaskUnit V E => a.lt b = false ∧ b.lt a = false) := by
  have hinc : ∀ a b : TaskUnit V E, (a.lt b = false ∧ b.lt a = false) ↔
      (a.priority_ = b.priority_ ∧ a.timestamp_ = b.timestamp_) := by
    intro a b
    rw [TaskUnit.lt_false_iff, TaskUnit.lt_false_iff, Fin.ext_iff]
    omega
  refine ⟨TaskUnit.lt_strictWeak.irrefl, fun a b h => TaskUnit.lt_strictWeak.asymm h,
    TaskUnit.lt_strictWeak.trans, hinc, ?_⟩
  constructor
  · intro a
    rw [hinc]
    exact ⟨rfl, rfl⟩
  · intro a b h
    exact ⟨h.2, h.1⟩
  · intro a b c h1 h2
    rw [hinc] at h1 h2 ⊢
    exact ⟨h1.1.trans h2.1, h1.2.trans h2.2⟩

end Order

/-! ## The invariant of the pool -/

section PoolLemmas

variable {V E : Type}

theorem PackagedTask.call_pending (p : PackagedTask V E) (fs : List (SharedState V E))
    (h : fs[p.shared]? = some SharedState.pending) :
    p.call fs = Res.ok (fs.set p.shared p.callable.stored) := by
  obtain ⟨k, c⟩ := p
  simp only at h
  cases c <;> simp [PackagedTask.call, h, Outcome.stored]

theorem Good.task_of_mem {s : System V E} {subm : List (TaskUnit V E)} (g : Good s subm)
    {u : TaskUnit V E} (hu : u ∈ subm) :
    ∃ p, u.task_ = some p ∧ p.shared < s.futures.length := by
  have hm : u.handle ∈ subm.map TaskUnit.handle := List.mem_map_of_mem _ hu
  rw [g.ids] at hm
  obtain ⟨k, hk, e⟩ := List.mem_map.1 hm
  rw [List.mem_range] at hk
  unfold TaskUnit.handle at e
  cases ht : u.task_ with
  | none =>
    rw [ht] at e
    cases e
  | some p =>
    rw [ht] at e
    simp only [Option.map_some', Option.some.injEq] at e
    exact ⟨p, rfl, by omega⟩

theorem Good.nodup {s : System V E} {subm : List (TaskUnit V E)} (g : Good s subm) :
    ((s.invoked ++ s.pool.tasks_).map TaskUnit.handle).Nodup := by
  rw [(g.perm.map _).nodup_iff, g.ids]
  exact (List.nodup_range _).map (Option.some_injective _)

theorem Good.new : Good (TaskPool.new : System V E) [] where
  heap := by
    intro i x y hi hin
    simp [TaskPool.new] at hin
  perm := by simp [TaskPool.new]
  ids := by simp [TaskPool.new]
  pend := by
    intro u hu
    simp [TaskPool.new] at hu
  done := by
    intro u hu
    simp [TaskPool.new] at hu

theorem Good.enqueue {s : System V E} {subm : List (TaskUnit V E)} (g : Good s subm)
    (now : Int) (pri : Priority) (f : Outcome V E) :
    Good (TaskPool.enqueue now pri f s).2
      (subm ++ [TaskUnit.new (some { shared := s.futures.length, callable := f }) pri now]) := by
  obtain ⟨e1, e2⟩ := pq_emplace_spec TaskUnit.lt_strictWeak s.pool.tasks_
    (TaskUnit.new (some { shared := s.futures.length, callable := f }) pri now) g.heap
  constructor
  · exact e1
  · simp only [TaskPool.enqueue]
    refine (List.Perm.append_left _ e2).trans ?_
    rw [← List.append_assoc]
    exact List.Perm.append_right _ g.perm
  · simp only [TaskPool.enqueue, List.map_append, List.length_append, List.length_singleton,
      List.range_succ, g.ids]
    rfl
  · intro u hu p hp
    simp only [TaskPool.enqueue] at hu ⊢
    have hu' := e2.subset hu
    rw [List.mem_append, List.mem_singleton] at hu'
    rcases hu' with hu' | hu'
    · have h1 := g.pend u hu' p hp
      have hlt : p.shared < s.futures.length := by
        by_contra hge
        rw [List.getElem?_eq_none (by omega)] at h1
        cases h1
      rw [List.getElem?_append_left hlt]
      exact h1
    · subst hu'
      simp only [TaskUnit.new, Option.some.injEq] at hp
      subst hp
      simp only
      rw [List.getElem?_append_right (le_refl _)]
      simp
  · intro u hu p hp
    simp only [TaskPool.enqueue] at hu ⊢
    have h1 := g.done u hu p hp
    have hlt : p.shared < s.futures.length := by
      by_contra hge
      rw [List.getElem?_eq_none (by omega)] at h1
      cases h1
    rw [List.getElem?_append_left hlt]
    exact h1

/-- A worker step on a running pool with a non-empty queue: it takes the first unit `t`
of the vector, which is a greatest unit of the queue, removes exactly that unit, calls
it, stores its outcome in its shared state and returns `true`. -/
theorem Good.DoTask {s : System V E} {subm : List (TaskUnit V E)} (g : Good s subm)
    (hstop : s.pool.stop_ = false) (now : Int) {t : TaskUnit V E}
    (ht : s.pool.tasks_[0]? = some t) :
    ∃ p s', t.task_ = some p ∧ TaskPool.DoTask now s = Res.ok (true, s') ∧
      s'.pool.tasks_ = pq_pop TaskUnit.lt s.pool.tasks_ ∧ s'.pool.stop_ = false ∧
      s'.futures = s.futures.set p.shared p.callable.stored ∧
      s'.invoked = s.invoked ++ [t] ∧ Good s' subm ∧
      (t :: s'.pool.tasks_).Perm s.pool.tasks_ ∧
      (∀ y ∈ s.pool.tasks_, t.lt y = false) := by
  obtain ⟨q1, q2⟩ := pq_pop_spec TaskUnit.lt_strictWeak s.pool.tasks_ t ht g.heap
  have htm : t ∈ s.pool.tasks_ := List.getElem?_mem ht
  obtain ⟨p, hp, hplt⟩ := g.task_of_mem (g.perm.subset (List.mem_append_right _ htm))
  have hpend := g.pend t htm p hp
  have hne : s.pool.tasks_.isEmpty = false := by
    cases hq : s.pool.tasks_ with
    | nil =>
      rw [hq] at htm
      cases htm
    | cons a l => rfl
  have htop : (pq_top s.pool.tasks_).getD (TaskUnit.default now) = t := by
    rw [pq_top, List.head?_eq_getElem?, ht]
    rfl
  have hcall : t.call s.futures = Res.ok (s.futures.set p.shared p.callable.stored) := by
    rw [TaskUnit.call, hp]
    exact p.call_pending _ hpend
  have hnd := g.nodup
  have hperm2 : (s.invoked ++ t :: pq_pop TaskUnit.lt s.pool.tasks_).Perm
      (s.invoked ++ s.pool.tasks_) := List.Perm.append_left _ q2
  have hnd2 := ((hperm2.map TaskUnit.handle).nodup_iff).2 hnd
  rw [List.map_append, List.map_cons, List.nodup_append] at hnd2
  obtain ⟨_, hnd3, hdisj⟩ := hnd2
  rw [List.nodup_cons] at hnd3
  have hth : t.handle = some p.shared := by
    rw [TaskUnit.handle, hp]
    rfl
  refine ⟨p, { pool := { tasks_ := pq_pop TaskUnit.lt s.pool.tasks_, stop_ := s.pool.stop_ },
               futures := s.futures.set p.shared p.callable.stored,
               invoked := s.invoked ++ [t] }, hp, ?_, rfl, hstop, rfl, rfl, ?_, q2, ?_⟩
  · simp only [TaskPool.DoTask, hstop, hne, htop, hcall]
    rfl
  · constructor
    · exact q1
    · simp only
      rw [List.append_assoc]
      exact hperm2.trans g.perm
    · simp only [List.length_set]
      exact g.ids
    · intro u hu p' hp'
      simp only at hu ⊢
      have hum : u ∈ s.pool.tasks_ := q2.subset (List.mem_cons_of_mem _ hu)
      have hne' : p.shared ≠ p'.shared := by
        intro e
        apply hnd3.1
        rw [hth, e]
        refine List.mem_map.2 ⟨u, hu, ?_⟩
        rw [TaskUnit.handle, hp']
        rfl
      rw [List.getElem?_set_ne hne']
      exact g.pend u hum p' hp'
    · intro u hu p' hp'
      simp only at hu ⊢
      rw [List.mem_append, List.mem_singleton] at hu
      rcases hu with hu | hu
      · have hne' : p.shared ≠ p'.shared := by
          intro e
          refine @hdisj (some p.shared) ?_ ?_
          · rw [e]
            refine List.mem_map.2 ⟨u, hu, ?_⟩
            rw [TaskUnit.handle, hp']
            rfl
          · rw [← hth]
            exact List.mem_cons_self _ _
        rw [List.getElem?_set_ne hne']
        exact g.done u hu p' hp'
      · subst hu
        rw [hp] at hp'
        cases hp'
        rw [List.getElem?_set_self hplt]
  · intro y hy
    obtain ⟨i, hi, hiy⟩ := List.getElem_of_mem hy
    exact g.heap.root_max TaskUnit.lt_strictWeak (le_refl _) ht i y hi
      (by rw [List.getElem?_eq_getElem hi, hiy])

theorem DoTask_of_stop (now : Int) (s : System V E) (h : s.pool.stop_ = true) :
    TaskPool.DoTask now s = Res.ok (false, s) := by
  simp [TaskPool.DoTask, h]

theorem DoTask_of_empty (now : Int) (s : System V E) (h : s.pool.stop_ = false)
    (he : s.pool.tasks_ = []) : TaskPool.DoTask now s = Res.ok (true, s) := by
  simp [TaskPool.DoTask, h, he]

theorem length_pq_emplace (lt : TaskUnit V E → TaskUnit V E → Bool) (q : List (TaskUnit V E))
    (x : TaskUnit V E) : (pq_emplace lt q x).length = q.length + 1 := by
  have hlast : (q ++ [x]).getLast? = some x := List.getLast?_concat q
  simp only [pq_emplace, push_heap, hlast, push_heap_aux, length_push_heap_loop]
  simp

theorem map_priority_unitsFrom (k : Nat) (subs : List (Submission V E)) :
    (unitsFrom k subs).map (fun u => u.priority_) = subs.map (fun x => x.pri) := by
  induction subs generalizing k with
  | nil => rfl
  | cons x xs ih =>
    simp only [unitsFrom, List.map_cons, ih]
    rfl

theorem submitAll_spec : ∀ (subs : List (Submission V E)) (s : System V E)
    (subm : List (TaskUnit V E)), Good s subm →
    Good (submitAll subs s) (subm ++ unitsFrom s.futures.length subs) ∧
    (submitAll subs s).pool.stop_ = s.pool.stop_ ∧
    (submitAll subs s).invoked = s.invoked ∧
    (submitAll subs s).pool.tasks_.length = s.pool.tasks_.length + subs.length
  | [], s, subm, g => by
    refine ⟨?_, rfl, rfl, rfl⟩
    simp only [submitAll, unitsFrom, List.append_nil]
    exact g
  | x :: xs, s, subm, g => by
    obtain ⟨g', h1, h2, h3⟩ := submitAll_spec xs _ _ (g.enqueue x.now x.pri x.f)
    simp only [submitAll]
    refine ⟨?_, ?_, ?_, ?_⟩
    · have e : (TaskPool.enqueue x.now x.pri x.f s).2.futures.length = s.futures.length + 1 := by
        simp [TaskPool.enqueue]
      rw [e, List.append_assoc] at g'
      exact g'
    · rw [h1]
      rfl
    · rw [h2]
      rfl
    · rw [h3]
      simp only [TaskPool.enqueue, length_pq_emplace, List.length_cons]
      omega

theorem run_spec : ∀ (ops : List (Op V E)) (s : System V E) (subm : List (TaskUnit V E)),
    Good s subm → s.pool.stop_ = false →
    ∃ s', run ops s = Res.ok s' ∧ s'.pool.stop_ = false ∧
      Good s' (subm ++ unitsFrom s.futures.length (submissions ops))
  | [], s, subm, g, hs => by
    refine ⟨s, rfl, hs, ?_⟩
    simp only [submissions, unitsFrom, List.append_nil]
    exact g
  | .enqueue x :: ops, s, subm, g, hs => by
    obtain ⟨s', h1, h2, g'⟩ := run_spec ops _ _ (g.enqueue x.now x.pri x.f) hs
    refine ⟨s', ?_, h2, ?_⟩
    · simp only [run]
      exact h1
    · have e : (TaskPool.enqueue x.now x.pri x.f s).2.futures.length = s.futures.length + 1 := by
        simp [TaskPool.enqueue]
      rw [e, List.append_assoc] at g'
      exact g'
  | .DoTask now :: ops, s, subm, g, hs => by
    cases hq : s.pool.tasks_[0]? with
    | none =>
      have hnil : s.pool.tasks_ = [] := by
        cases hl : s.pool.tasks_ with
        | nil => rfl
        | cons a l =>
          rw [hl] at hq
          simp at hq
      obtain ⟨s', h1, h2, g'⟩ := run_spec ops s subm g hs
      refine ⟨s', ?_, h2, g'⟩
      simp only [run, DoTask_of_empty now s hs hnil]
      exact h1
    | some t =>
      obtain ⟨p, s1, _, hd, _, hs1, hf1, _, g1, _, _⟩ := g.DoTask hs now hq
      obtain ⟨s', h1, h2, g'⟩ := run_spec ops s1 subm g1 hs1
      refine ⟨s', ?_, h2, ?_⟩
      · simp only [run, hd]
        exact h1
      · rw [hf1, List.length_set] at g'
        exact g'

/-- The worker loop on a running pool: it never throws, and the units it invokes (`ext`)
are removed from the queue one by one, each not less than any unit invoked later or
left in the queue. -/
theorem workerLoop_spec : ∀ (nows : List Int) (s : System V E) (subm : List (TaskUnit V E)),
    Good s subm → s.pool.stop_ = false →
    ∃ s' ext, workerLoop nows s = Res.ok s' ∧ Good s' subm ∧ s'.pool.stop_ = false ∧
      s'.invoked = s.invoked ++ ext ∧
      ext.length = min nows.length s.pool.tasks_.length ∧
      (ext ++ s'.pool.tasks_).Perm s.pool.tasks_ ∧
      ext.Pairwise (fun x y => x.lt y = false) ∧
      (∀ x ∈ ext, ∀ y ∈ s'.pool.tasks_, x.lt y = false)
  | [], s, subm, g, hs => by
    refine ⟨s, [], rfl, g, hs, by simp, by simp, by simp, List.Pairwise.nil, ?_⟩
    intro x hx
    cases hx
  | now :: nows, s, subm, g, hs => by
    cases hq : s.pool.tasks_[0]? with
    | none =>
      have hnil : s.pool.tasks_ = [] := by
        cases hl : s.pool.tasks_ with
        | nil => rfl
        | cons a l =>
          rw [hl] at hq
          simp at hq
      obtain ⟨s', ext, h1, g', hs', hi', hl', hperm', hpw', hcr'⟩ :=
        workerLoop_spec nows s subm g hs
      refine ⟨s', ext, ?_, g', hs', hi', ?_, hperm', hpw', hcr'⟩
      · simp only [workerLoop, DoTask_of_empty now s hs hnil]
        exact h1
      · rw [hl', hnil]
        simp
    | some t =>
      obtain ⟨p, s1, _, hd, _, hs1, _, hi1, g1, hperm1, hmax⟩ := g.DoTask hs now hq
      obtain ⟨s', ext, h1, g', hs', hi', hl', hperm', hpw', hcr'⟩ :=
        workerLoop_spec nows s1 subm g1 hs1
      have hsub : ∀ y, y ∈ ext ++ s'.pool.tasks_ → y ∈ s.pool.tasks_ := fun y hy =>
        hperm1.subset (List.mem_cons_of_mem _ (hperm'.subset hy))
      refine ⟨s', t :: ext, ?_, g', hs', ?_, ?_, ?_, ?_, ?_⟩
      · simp only [workerLoop, hd]
        exact h1
      · rw [hi', hi1]
        simp
      · have := hperm1.length_eq
        simp only [List.length_cons] at this ⊢
        omega
      · exact (List.Perm.cons t hperm').trans hperm1
      · rw [List.pairwise_cons]
        exact ⟨fun y hy => hmax y (hsub y (List.mem_append_left _ hy)), hpw'⟩
      · intro x hx y hy
        rw [List.mem_cons] at hx
        rcases hx with hx | hx
        · subst hx
          exact hmax y (hsub y (List.mem_append_right _ hy))
        · exact hcr' x hx y hy

theorem reachable_good (ops : List (Op V E)) :
    ∃ s, run ops TaskPool.new = Res.ok s ∧ s.pool.stop_ = false ∧
      Good s (unitsFrom 0 (submissions ops)) := by
  obtain ⟨s, h1, h2, g⟩ := run_spec ops (TaskPool.new : System V E) [] Good.new rfl
  exact ⟨s, h1, h2, by simpa [TaskPool.new] using g⟩

theorem good_with_stop {s : System V E} {subm : List (TaskUnit V E)} (g : Good s subm)
    (stop : Bool) :
    Good { pool := { tasks_ := s.pool.tasks_, stop_ := stop }, futures := s.futures,
           invoked := s.invoked } subm :=
  ⟨g.heap, g.perm, g.ids, g.pend, g.done⟩

end PoolLemmas

/-! ## The scheduling properties -/

section Scheduling

variable {V E : Type}

/-- The run of `main` in `test_main.cc` when all four units are queued before the
single worker starts: `Mul`, `Div`, `Add`, `Sub` are invoked in that order, and the
four handles hold `3`, `1`, `6`, `4`. -/
theorem test_main_execution :
    workerLoop [0, 0, 0, 0] (submitAll test_main_subs TaskPool.new) =
      Res.ok
        { pool := { tasks_ := [], stop_ := false },
          futures := [SharedState.value 3, SharedState.value 1, SharedState.value 6,
            SharedState.value 4],
          invoked :=
            [{ task_ := some { shared := 2, callable := Outcome.value 6 },
               priority_ := 1, timestamp_ := 12 },
             { task_ := some { shared := 3, callable := Outcome.value 4 },
               priority_ := 1, timestamp_ := 13 },
             { task_ := some { shared := 0, callable := Outcome.value 3 },
               priority_ := 0, timestamp_ := 10 },
             { task_ := some { shared := 1, callable := Outcome.value 1 },
               priority_ := 0, timestamp_ := 11 }] } := by
  decide

/-- C2: when all submissions are inserted before draining starts, a single worker
never throws, extracts one unit per step while units remain, and the units it invokes
have non-increasing priorities: a unit invoked earlier has a priority at least that of
a unit invoked later, and at least that of every unit still queued.  The priorities of
the units invoked and queued are, with multiplicity, the priorities passed to
`enqueue`. -/
theorem drain_priorities_nonincreasing (subs : List (Submission V E)) (nows : List Int) :
    ∃ s, workerLoop nows (submitAll subs TaskPool.new) = Res.ok s ∧
      s.invoked.length = min nows.length subs.length ∧
      (s.invoked ++ s.pool.tasks_).Perm (unitsFrom 0 subs) ∧
      ((s.invoked ++ s.pool.tasks_).map (fun u => u.priority_)).Perm
        (subs.map (fun x => x.pri)) ∧
      s.invoked.Pairwise (fun X Y => X.priority_ ≥ Y.priority_) ∧
      (∀ X ∈ s.invoked, ∀ Y ∈ s.pool.tasks_, X.priority_ ≥ Y.priority_) := by
  obtain ⟨g0, hs0, hi0, hl0⟩ := submitAll_spec subs (TaskPool.new : System V E) [] Good.new
  obtain ⟨s, ext, h1, g, _, hi, hl, _, hpw, hcr⟩ :=
    workerLoop_spec nows _ _ g0 (by rw [hs0]; rfl)
  have hinv : s.invoked = ext := by
    rw [hi, hi0]
    rfl
  have hperm : (s.invoked ++ s.pool.tasks_).Perm (unitsFrom 0 subs) := by
    simpa [TaskPool.new] using g.perm
  have hge : ∀ X Y : TaskUnit V E, X.lt Y = false → X.priority_ ≥ Y.priority_ := by
    intro X Y hXY
    rw [TaskUnit.lt_false_iff] at hXY
    rw [ge_iff_le, Fin.le_def]
    omega
  refine ⟨s, h1, ?_, hperm, ?_, ?_, ?_⟩
  · rw [hinv, hl, hl0]
    simp [TaskPool.new]
  · rw [← map_priority_unitsFrom 0 subs]
    exact hperm.map _
  · rw [hinv]
    exact hpw.imp (hge _ _)
  · intro X hX Y hY
    exact hge X Y (hcr X (hinv ▸ hX) Y hY)

/-- The run of `main` pins `drain_priorities_nonincreasing`: the priorities 0, 0, 1, 1
passed to `enqueue` are extracted as 1, 1, 0, 0, and nothing is left in the queue. -/
theorem drain_priorities_nonincreasing_witness :
    test_main_subs.map (fun x => x.pri) = [0, 0, 1, 1] ∧
    ∃ s, workerLoop [0, 0, 0, 0] (submitAll test_main_subs TaskPool.new) = Res.ok s ∧
      s.invoked.map (fun u => u.priority_) = [1, 1, 0, 0] ∧
      s.pool.tasks_ = [] ∧
      s.invoked.length = min ([0, 0, 0, 0] : List Int).length test_main_subs.length ∧
      ((s.invoked ++ s.pool.tasks_).map (fun u => u.priority_)).Perm
        (test_main_subs.map (fun x => x.pri)) ∧
      s.invoked.Pairwise (fun X Y => X.priority_ ≥ Y.priority_) := by
  refine ⟨by decide, ?_⟩
  obtain ⟨s, h1, h2, _, h4, h5, _⟩ :=
    drain_priorities_nonincreasing test_main_subs [0, 0, 0, 0]
  refine ⟨s, h1, ?_, ?_, h2, h4, h5⟩
  · rw [test_main_execution] at h1
    cases h1
    decide
  · rw [test_main_execution] at h1
    cases h1
    rfl

/-- C4: in every interleaving of submissions and worker steps on a running pool no step
throws, the units invoked so far together with the units queued are exactly the units
submitted, the submitted units are pairwise distinct, and a step on a non-empty queue
removes exactly the unit it invokes.  Draining from there keeps that balance, stores
the outcome of every invoked unit in its shared state, and after as many steps as
units were queued the queue is empty and the invoked units are exactly the submitted
units. -/
theorem every_unit_runs_exactly_once (ops : List (Op V E)) (nows : List Int) :
    ∃ s, run ops TaskPool.new = Res.ok s ∧ s.pool.stop_ = false ∧
      (s.invoked ++ s.pool.tasks_).Perm (unitsFrom 0 (submissions ops)) ∧
      (unitsFrom 0 (submissions ops)).Nodup ∧
      (∀ now t, s.pool.tasks_[0]? = some t →
        ∃ s1, TaskPool.DoTask now s = Res.ok (true, s1) ∧ s1.invoked = s.invoked ++ [t] ∧
          (t :: s1.pool.tasks_).Perm s.pool.tasks_) ∧
      ∃ s', workerLoop nows s = Res.ok s' ∧
        (s'.invoked ++ s'.pool.tasks_).Perm (unitsFrom 0 (submissions ops)) ∧
        s'.invoked.length = s.invoked.length + min nows.length s.pool.tasks_.length ∧
        (∀ u ∈ s'.invoked, ∃ p, u.task_ = some p ∧
          s'.futures[p.shared]? = some p.callable.stored) ∧
        (s.pool.tasks_.length ≤ nows.length →
          s'.pool.tasks_ = [] ∧ s'.invoked.Perm (unitsFrom 0 (submissions ops))) := by
  obtain ⟨s, h1, hs, g⟩ := reachable_good ops
  obtain ⟨s', ext, h2, g', _, hi, hl, hperm, _, _⟩ := workerLoop_spec nows s _ g hs
  refine ⟨s, h1, hs, g.perm, ?_, ?_, s', h2, g'.perm, ?_, ?_, ?_⟩
  · have := g.ids ▸ (List.nodup_range s.futures.length).map (Option.some_injective _)
    exact List.Nodup.of_map _ this
  · intro now t ht
    obtain ⟨p, s1, _, hd, _, _, _, hi1, _, hp1, _⟩ := g.DoTask hs now ht
    exact ⟨s1, hd, hi1, hp1⟩
  · rw [hi, List.length_append, hl]
  · intro u hu
    obtain ⟨p, hp, _⟩ := g'.task_of_mem (g'.perm.subset (List.mem_append_left _ hu))
    exact ⟨p, hp, g'.done u hu p hp⟩
  · intro hle
    have hnil : s'.pool.tasks_ = [] := by
      have h3 := hperm.length_eq
      rw [List.length_append, hl] at h3
      apply List.eq_nil_of_length_eq_zero
      omega
    refine ⟨hnil, ?_⟩
    have := g'.perm
    rw [hnil, List.append_nil] at this
    exact this

/-- C5: once the stop flag is true, a worker step returns `false` and leaves the whole
state as it was, whatever the queue holds, so the worker loop ends at that step
without extracting or invoking a unit. -/
theorem DoTask_after_stop (s : System V E) (now : Int) (nows : List Int)
    (h : s.pool.stop_ = true) :
    TaskPool.DoTask now s = Res.ok (false, s) ∧ workerLoop (now :: nows) s = Res.ok s := by
  have hd := DoTask_of_stop now s h
  refine ⟨hd, ?_⟩
  simp only [workerLoop, hd]

/-- C8: each call of `enqueue` increases `size()` by exactly one and leaves the stop flag
unchanged, and after `N` calls of `enqueue` on a freshly constructed pool that no
worker drains `size()` is exactly `N` and the stop flag is still false. -/
theorem size_after_submissions (subs : List (Submission V E)) :
    TaskPool.size (submitAll subs (TaskPool.new : System V E)) = subs.length ∧
    (submitAll subs (TaskPool.new : System V E)).pool.stop_ = false ∧
    ∀ (s : System V E) (now : Int) (pri : Priority) (f : Outcome V E),
      TaskPool.size (TaskPool.enqueue now pri f s).2 = TaskPool.size s + 1 ∧
      (TaskPool.enqueue now pri f s).2.pool.stop_ = s.pool.stop_ := by
  obtain ⟨_, hs0, _, hl0⟩ := submitAll_spec subs (TaskPool.new : System V E) [] Good.new
  refine ⟨?_, ?_, ?_⟩
  · rw [TaskPool.size, hl0]
    simp [TaskPool.new]
  · rw [hs0]
    rfl
  · intro s now pri f
    exact ⟨length_pq_emplace _ _ _, rfl⟩

/-- C9: take any state reached by submissions and worker steps, with the stop flag at
either value.  A worker step there never throws; on the stop branch and on the
empty-queue branch it invokes nothing; otherwise it invokes exactly the unit at the top
of the queue, whose callable is non-empty.  No unit ever invoked has an empty callable,
so the default-constructed placeholder is never invoked. -/
theorem placeholder_never_invoked (ops : List (Op V E)) (s : System V E) (now : Int)
    (stop : Bool) (h : run ops TaskPool.new = Res.ok s) :
    ∃ b s', TaskPool.DoTask now { pool := { tasks_ := s.pool.tasks_, stop_ := stop },
                                  futures := s.futures, invoked := s.invoked }
        = Res.ok (b, s') ∧
      (stop = true ∨ s.pool.tasks_ = [] → s'.invoked = s.invoked) ∧
      (stop = false ∧ s.pool.tasks_ ≠ [] → b = true ∧
        ∃ u p, pq_top s.pool.tasks_ = some u ∧ u.task_ = some p ∧
          s'.invoked = s.invoked ++ [u]) ∧
      (∀ u ∈ s'.invoked, u.task_ ≠ none) ∧
      (∀ t : Int, TaskUnit.default t ∉ s'.invoked) := by
  obtain ⟨s0, h1, _, g0⟩ := reachable_good ops
  rw [h] at h1
  cases h1
  have key : ∀ (b : Bool) (s' : System V E), Good s' (unitsFrom 0 (submissions ops)) →
      (∀ u ∈ s'.invoked, u.task_ ≠ none) ∧ (∀ t : Int, TaskUnit.default t ∉ s'.invoked) := by
    intro b s' g'
    have k1 : ∀ u ∈ s'.invoked, u.task_ ≠ none := by
      intro u hu hn
      obtain ⟨p, hp, _⟩ := g'.task_of_mem (g'.perm.subset (List.mem_append_left _ hu))
      rw [hn] at hp
      cases hp
    exact ⟨k1, fun t ht => k1 _ ht rfl⟩
  cases hstop : stop with
  | true =>
    refine ⟨false, _, DoTask_of_stop now _ rfl, fun _ => rfl, ?_, ?_⟩
    · rintro ⟨hf, _⟩
      cases hf
    · exact key false _ (good_with_stop g0 true)
  | false =>
    cases hq : s.pool.tasks_[0]? with
    | none =>
      have hnil : s.pool.tasks_ = [] := by
        cases hl : s.pool.tasks_ with
        | nil => rfl
        | cons a l =>
          rw [hl] at hq
          simp at hq
      refine ⟨true, _, DoTask_of_empty now _ rfl hnil, fun _ => rfl, ?_, ?_⟩
      · rintro ⟨_, hne⟩
        exact absurd hnil hne
      · exact key true _ (good_with_stop g0 false)
    | some t =>
      obtain ⟨p, s', hp, hd, _, _, _, hi, g', _, _⟩ :=
        (good_with_stop g0 false).DoTask rfl now hq
      refine ⟨true, s', hd, ?_, ?_, key true s' g'⟩
      · rintro (hf | hnil)
        · cases hf
        · rw [hnil] at hq
          simp at hq
      · intro _
        refine ⟨rfl, t, p, ?_, hp, hi⟩
        rw [pq_top, List.head?_eq_getElem?]
        exact hq

/-- The hypothesis of `DoTask_after_stop` holds for the stopped pool of `main` with its
four units still queued. -/
theorem DoTask_after_stop_witness :
    stopped_pool.pool.stop_ = true ∧ stopped_pool.pool.tasks_.length = 4 ∧
    TaskPool.DoTask 0 stopped_pool = Res.ok (false, stopped_pool) ∧
    workerLoop (0 :: [1, 2]) stopped_pool = Res.ok stopped_pool :=
  ⟨by decide, by decide, DoTask_after_stop stopped_pool 0 [1, 2] (by decide)⟩

/-- The teardown of `mixed_state`: the three queued units are abandoned, the unit that
has run keeps its value. -/
theorem mixed_state_teardown :
    (TaskPool.destructor mixed_state).futures =
      [SharedState.broken_promise, SharedState.broken_promise, SharedState.value 6,
        SharedState.broken_promise] := by
  decide

/-- The hypothesis of `placeholder_never_invoked` holds for `mixed_ops` and a pool that
is still running. -/
theorem placeholder_never_invoked_witness :
    run mixed_ops TaskPool.new = Res.ok mixed_state ∧
    ∃ b s', TaskPool.DoTask 15 { pool := { tasks_ := mixed_state.pool.tasks_, stop_ := false },
                                 futures := mixed_state.futures,
                                 invoked := mixed_state.invoked }
        = Res.ok (b, s') ∧
      (false = true ∨ mixed_state.pool.tasks_ = [] → s'.invoked = mixed_state.invoked) ∧
      (false = false ∧ mixed_state.pool.tasks_ ≠ [] → b = true ∧
        ∃ u p, pq_top mixed_state.pool.tasks_ = some u ∧ u.task_ = some p ∧
          s'.invoked = mixed_state.invoked ++ [u]) ∧
      (∀ u ∈ s'.invoked, u.task_ ≠ none) ∧
      (∀ t : Int, TaskUnit.default t ∉ s'.invoked) :=
  ⟨by decide, placeholder_never_invoked mixed_ops mixed_state 15 false (by decide)⟩

end Scheduling

end utils
